import Mathlib

/-!
Verification of the vii request-processing core (github.com/phillip-england/vii).

The Go sources are shallowly embedded:

* the pipeline executor `compiledPipeline.serve` (src/vii/service.go) /
  `App.serveFor` (src/vii/app.go), running route validators, service
  validators, `Before` hooks, the handler, and `After` hooks in reverse,
  with the `ErrHalt` / error-hook semantics;
* the service graph resolver `resolveServices` (src/vii/app.go), with its
  visiting / visited sets keyed by the reflected service identity;
* the typed context store (`validatedStore`, `cloneStore`, `WithValidated`,
  `Validated`, `WithValid`, `Valid`, `ProvideKey`, the validator wrappers);
* the WebSocket phase driver `serveWebSocket` and `dispatchWS`.

Pure Go functions become Lean functions; the request value threaded through
the pipeline becomes an abstract state `σ`; the context-store heap (Go map
pointers reachable from request contexts) becomes an explicit list of store
cells so that snapshot immutability is a real statement and not a tautology
of purity.
-/

namespace Vii

/-- Outcome of one pipeline stage call, mirroring the Go error convention:
`nil` error (`ok`), the sentinel `ErrHalt` from src/vii/halt.go (`halt`),
and any other non-nil error (`fail`). -/
inductive Outcome where
  | ok
  | fail
  | halt
deriving DecidableEq, Repr

/-- Observable events of one pipeline run: which stage executed (with its
position), and invocations of the route error hook (`route.OnErr`) and the
application error hook (`app.OnErr`). -/
inductive Ev where
  | routeVal (i : Nat)
  | nodeVal (node : Nat) (j : Nat)
  | before (node : Nat)
  | handle
  | after (node : Nat)
  | routeErr
  | appErr
deriving DecidableEq, Repr

/-- Control result of a pipeline phase: keep going with the threaded request
state, or stop because some stage returned `ErrHalt` (Go `return nil`) or a
real error (Go `return err` after the error hooks ran). -/
inductive RunRes (σ : Type) where
  | cont (s : σ)
  | halted
  | failed
deriving DecidableEq, Repr

/-- Final observable result of `compiledPipeline.serve`: full success,
clean halt, or error return. -/
inductive ServeOut where
  | ok
  | halted
  | failed
deriving DecidableEq, Repr

/-- One resolved service node (`serviceNode` in src/vii/app.go): the
service's validators and its `Before`/`After` hooks.  A validator returns an
updated request plus an outcome (`ValidateAny`); `Before` likewise; `After`
returns only an outcome, exactly as in the Go interfaces.  `none` entries
model `nil` validators, which the Go loops skip. -/
structure Node (σ : Type) where
  validators : List (Option (σ → σ × Outcome))
  before : σ → σ × Outcome
  after : σ → Outcome

/-- A compiled pipeline (`compiledPipeline` in src/vii/service.go):
route-level validators, resolved service nodes, the handler, whether the
application error hook is set (`p.app != nil && p.app.OnErr != nil`), and
the `withApp` context attachment done first in `serve`. -/
structure Pipeline (σ : Type) where
  hasAppErr : Bool
  attachApp : σ → σ
  routeValidators : List (Option (σ → σ × Outcome))
  nodes : List (Node σ)
  handler : σ → Outcome

/-- Error-hook events fired on a non-halt failure: the route hook always,
then the app hook when it is set (src/vii/service.go error branches). -/
def hookEvs (hasApp : Bool) : List Ev :=
  Ev.routeErr :: (if hasApp then [Ev.appErr] else [])

variable {σ : Type}

/-- One validator loop of `serve` (used for both the route validators and
each node's validators; the two Go loops are textually identical).  `mk`
tags the emitted event with the validator's position. -/
def runVals (hasApp : Bool) (mk : Nat → Ev) :
    List (Option (σ → σ × Outcome)) → Nat → σ → List Ev × RunRes σ
  | [], _, s => ([], RunRes.cont s)
  | none :: vs, i, s => runVals hasApp mk vs (i + 1) s
  | some v :: vs, i, s =>
    match v s with
    | (s1, Outcome.ok) =>
      let r := runVals hasApp mk vs (i + 1) s1
      (mk i :: r.1, r.2)
    | (_, Outcome.halt) => ([mk i], RunRes.halted)
    | (_, Outcome.fail) => (mk i :: hookEvs hasApp, RunRes.failed)

/-- The node loop of `serve`: for each resolved node in order, its
validators, then its `Before`, with the same halt/fail policy. -/
def runNodes (hasApp : Bool) : List (Node σ) → Nat → σ → List Ev × RunRes σ
  | [], _, s => ([], RunRes.cont s)
  | n :: ns, i, s =>
    match runVals hasApp (Ev.nodeVal i) n.validators 0 s with
    | (t1, RunRes.cont s1) =>
      match n.before s1 with
      | (s2, Outcome.ok) =>
        let r := runNodes hasApp ns (i + 1) s2
        (t1 ++ Ev.before i :: r.1, r.2)
      | (_, Outcome.halt) => (t1 ++ [Ev.before i], RunRes.halted)
      | (_, Outcome.fail) => (t1 ++ Ev.before i :: hookEvs hasApp, RunRes.failed)
    | (t1, RunRes.halted) => (t1, RunRes.halted)
    | (t1, RunRes.failed) => (t1, RunRes.failed)

/-- The `After` loop of `serve`: Go iterates `i` from `len(nodes)-1` down to
`0`; the ambient request is no longer re-threaded (`After` returns only an
error).  The argument list carries each node with its original index. -/
def runAfters (hasApp : Bool) : List (Nat × Node σ) → σ → List Ev × ServeOut
  | [], _ => ([], ServeOut.ok)
  | (i, n) :: rest, s =>
    match n.after s with
    | Outcome.ok =>
      let r := runAfters hasApp rest s
      (Ev.after i :: r.1, r.2)
    | Outcome.halt => ([Ev.after i], ServeOut.halted)
    | Outcome.fail => (Ev.after i :: hookEvs hasApp, ServeOut.failed)

/-- `compiledPipeline.serve` (src/vii/service.go, lines 51–132): attach the
app, run route validators, run each node's validators and `Before`, run the
handler, then run `After` hooks in reverse node order.  Every stage checks
`err == ErrHalt` (return `nil`, no hooks) before the error-hook path.
`App.serveFor` (src/vii/app.go, lines 151–226) has the same structure. -/
def serve (p : Pipeline σ) (s0 : σ) : List Ev × ServeOut :=
  let s := p.attachApp s0
  match runVals p.hasAppErr Ev.routeVal p.routeValidators 0 s with
  | (t1, RunRes.cont s1) =>
    match runNodes p.hasAppErr p.nodes 0 s1 with
    | (t2, RunRes.cont s2) =>
      match p.handler s2 with
      | Outcome.ok =>
        let r := runAfters p.hasAppErr p.nodes.enum.reverse s2
        (t1 ++ t2 ++ Ev.handle :: r.1, r.2)
      | Outcome.halt => (t1 ++ t2 ++ [Ev.handle], ServeOut.halted)
      | Outcome.fail =>
        (t1 ++ t2 ++ Ev.handle :: hookEvs p.hasAppErr, ServeOut.failed)
    | (t2, RunRes.halted) => (t1 ++ t2, ServeOut.halted)
    | (t2, RunRes.failed) => (t1 ++ t2, ServeOut.failed)
  | (t1, RunRes.halted) => (t1, ServeOut.halted)
  | (t1, RunRes.failed) => (t1, ServeOut.failed)

/-- Index of a `Before` event, if any. -/
def evBeforeIdx : Ev → Option Nat
  | Ev.before i => some i
  | _ => none

/-- Index of an `After` event, if any. -/
def evAfterIdx : Ev → Option Nat
  | Ev.after i => some i
  | _ => none

/-- Whether an event is an error-hook invocation. -/
def isHookEv : Ev → Bool
  | Ev.routeErr => true
  | Ev.appErr => true
  | _ => false

/-- Node indices whose `Before` executed, in execution order. -/
def beforeTrace (tr : List Ev) : List Nat := tr.filterMap evBeforeIdx

/-- Node indices whose `After` executed, in execution order. -/
def afterTrace (tr : List Ev) : List Nat := tr.filterMap evAfterIdx

/-- Number of error-hook invocations in a trace. -/
def hookCount (tr : List Ev) : Nat := (tr.filter isHookEv).length

/-- Sequencing helper used only to state decomposition lemmas about the
phase loops (not part of the embedded code). -/
def seqStep (a : List Ev × RunRes σ) (f : σ → List Ev × RunRes σ) :
    List Ev × RunRes σ :=
  match a with
  | (t, RunRes.cont s) =>
    let r := f s
    (t ++ r.1, r.2)
  | (t, RunRes.halted) => (t, RunRes.halted)
  | (t, RunRes.failed) => (t, RunRes.failed)

/-! ## Service graph resolver (`resolveServices`, src/vii/app.go lines 293–351)

Go service values form an arbitrary object graph (possibly cyclic), so the
declared services are embedded as a finite universe of declarations indexed
by `Nat`; `subs` are indices of the sub-services returned by `Services()`.
`reflect.TypeOf(s).String()` becomes the declared `typeName`; a service
implementing `ServiceKeyer` carries `key = some k`. -/

/-- One declared service: reflected type name, optional instance key
(`ServiceKey()`), declared sub-services, and whether it has validators
(`WithValidators`), kept as an opaque count for the node payload. -/
structure SvcDecl where
  typeName : String
  key : Option String
  subs : List Nat
deriving DecidableEq, Repr

/-- The universe of declared services; an index outside the universe plays
the role of a `nil` Service (which `visit` ignores). -/
abbrev Univ := List SvcDecl

/-- `serviceID` from src/vii/app.go: the reflected type string, refined by
`"|" + key` when the service implements `ServiceKeyer` (an empty key still
appends the bar). -/
def sid (s : SvcDecl) : String :=
  match s.key with
  | none => s.typeName
  | some k => s.typeName ++ "|" ++ k

/-- Resolver state: the `visiting` and `visited` identity sets and the
output node list of `resolveServices`. -/
structure RState where
  visiting : List String
  visited : List String
  out : List SvcDecl
deriving DecidableEq, Repr

/-- Resolution failure: the Go code panics with
`"vii: cyclic service dependency detected at " + id`; `fuel` is a model
artifact of bounding the recursion depth (never reached for the generous
fuel used by `resolveServices`). -/
inductive ResolveErr where
  | cyclic (id : String)
  | fuel
deriving DecidableEq, Repr

/-- The recursive `visit` closure of `resolveServices`.  The first argument
selects a single service (`Sum.inl i`) or a list of services to visit in
order (`Sum.inr l`, the `Services()` recursion and the root loop).  Fuel
decreases structurally on every call so the definition evaluates by
`decide`/`rfl`.  Mirrors src/vii/app.go lines 316–344: skip if `visited`,
panic if `visiting`, else mark visiting, visit sub-services, append the
node, unmark visiting, mark visited. -/
def visitGo (u : Univ) : Nat → Nat ⊕ List Nat → RState → Except ResolveErr RState
  | 0, _, _ => Except.error ResolveErr.fuel
  | Nat.succ fuel, Sum.inl i, st =>
    match u[i]? with
    | none => Except.ok st
    | some s =>
      let id := sid s
      if id ∈ st.visited then Except.ok st
      else if id ∈ st.visiting then
        Except.error (ResolveErr.cyclic id)
      else
        match visitGo u fuel (Sum.inr s.subs)
            { st with visiting := id :: st.visiting } with
        | Except.error e => Except.error e
        | Except.ok st2 =>
          Except.ok { visiting := st2.visiting.erase id,
                      visited := id :: st2.visited,
                      out := st2.out ++ [s] }
  | Nat.succ _, Sum.inr [], st => Except.ok st
  | Nat.succ fuel, Sum.inr (i :: rest), st =>
    match visitGo u fuel (Sum.inl i) st with
    | Except.error e => Except.error e
    | Except.ok st1 => visitGo u fuel (Sum.inr rest) st1

/-- Depth bound for the resolver recursion: ample fuel so that the `fuel`
error is unreachable on runs the claims talk about (witnesses evaluate it
concretely). -/
def resolveFuel (u : Univ) (roots : List Nat) : Nat :=
  (u.length + 2) * (u.foldr (fun s m => max s.subs.length m) 0 + 2) +
    roots.length + 2

/-- `resolveServices` (src/vii/app.go): visit every root in order, starting
from empty visiting/visited sets, and return the flat node list.  The Go
panic on a cycle becomes `Except.error`. -/
def resolveServices (u : Univ) (roots : List Nat) : Except ResolveErr (List SvcDecl) :=
  match visitGo u (resolveFuel u roots) (Sum.inr roots) ⟨[], [], []⟩ with
  | Except.error e => Except.error e
  | Except.ok st => Except.ok st.out

/-- `compilePipeline` root collection (src/vii/service.go lines 30–36):
application-wide services first (when any), then route services (when any). -/
def compileRoots (appSvcs routeSvcs : List Nat) : List Nat :=
  let roots : List Nat := []
  let roots := if 0 < appSvcs.length then roots ++ appSvcs else roots
  let roots := if 0 < routeSvcs.length then roots ++ routeSvcs else roots
  roots

/-- Resolver invariant carried through `visitGo`: `visited` lists exactly
the identities already emitted (newest first), it has no duplicates, and no
in-progress identity is already visited. -/
def RInv (st : RState) : Prop :=
  st.visited = (st.out.map sid).reverse ∧
  st.visited.Nodup ∧
  ∀ x ∈ st.visiting, x ∉ st.visited

/-! ## Typed context store (src/vii — part of provide.go and the validated
store in the `vii` package)

The Go store lives behind a pointer in the request context; `cloneStore`
copies it and the `With*` writers mutate only the fresh copy.  To make the
snapshot claims meaningful the pointer heap is explicit: a `World` is the
list of store cells ever allocated, and a request (`Req`) holds the index
of its cell (or `none` when the context carries no store).  Values are an
arbitrary type `V`; the reflected type `reflect.Type` key becomes its
`String` name. -/

/-- One store cell (`validatedStore`): the by-type and by-key maps.  Go
maps are modeled as association lists where a put conses the new binding in
front and lookup takes the first match, which is exactly overwrite
semantics. -/
structure Store (V : Type) where
  byType : List (String × V)
  byKey : List (String × V)
deriving DecidableEq, Repr

/-- Go map lookup. -/
def mapGet {V : Type} : List (String × V) → String → Option V
  | [], _ => none
  | (k1, v) :: rest, k => if k = k1 then some v else mapGet rest k

/-- Go map assignment `m[k] = v` on a (freshly copied) map. -/
def mapPut {V : Type} (m : List (String × V)) (k : String) (v : V) :
    List (String × V) :=
  (k, v) :: m

/-- The heap of all store cells ever allocated for this request family. -/
structure World (V : Type) where
  heap : List (Store V)
deriving DecidableEq, Repr

/-- A request's store reference: the context value installed under
`validatedStoreKey`, or `none` when absent. -/
abbrev Req := Option Nat

/-- `getStore` (part of the vii context store): the store the request's
context points at, or a fresh empty store when the context has none. -/
def getStore {V : Type} (w : World V) (r : Req) : Store V :=
  match r with
  | none => ⟨[], []⟩
  | some i => w.heap.getD i ⟨[], []⟩

/-- `cloneStore`: copy both maps of the old store into a fresh cell (the
contents are equal; freshness is realized by `allocStore` below). -/
def cloneStore {V : Type} (old : Store V) : Store V :=
  ⟨old.byType, old.byKey⟩

/-- Allocate a fresh cell: the new `context.WithValue` pointer. -/
def allocStore {V : Type} (w : World V) (st : Store V) : World V × Nat :=
  (⟨w.heap ++ [st]⟩, w.heap.length)

/-- `WithValidated` (by-type put): clone the current store, assign the
by-type slot for `t`, install the fresh cell in a new request. -/
def withValidated {V : Type} (w : World V) (r : Req) (t : String) (v : V) :
    World V × Req :=
  let old := getStore w r
  let next := cloneStore old
  let next := { next with byType := mapPut next.byType t v }
  let a := allocStore w next
  (a.1, some a.2)

/-- `Validated` (by-type get). -/
def validated {V : Type} (w : World V) (r : Req) (t : String) : Option V :=
  mapGet (getStore w r).byType t

/-- `keyString`: composite by-key map key, `T.String() + "|" + name`. -/
def keyString (t name : String) : String := t ++ "|" ++ name

/-- `WithValid` (by-key put): clone, assign the by-key slot for
`(t, name)`, install the fresh cell. -/
def withValid {V : Type} (w : World V) (r : Req) (t name : String) (v : V) :
    World V × Req :=
  let old := getStore w r
  let next := cloneStore old
  let next := { next with byKey := mapPut next.byKey (keyString t name) v }
  let a := allocStore w next
  (a.1, some a.2)

/-- `Valid` (by-key get). -/
def valid {V : Type} (w : World V) (r : Req) (t name : String) : Option V :=
  mapGet (getStore w r).byKey (keyString t name)

/-- `ProvideKey` (src/vii/provide.go lines 14–18): store by type AND by
key. -/
def provideKey {V : Type} (w : World V) (r : Req) (t name : String) (v : V) :
    World V × Req :=
  let a := withValidated w r t v
  withValid a.1 a.2 t name v

/-- Result of running a wrapped validator: the (world, request) it leaves
behind plus the error it returns, mirroring `(ValidateAny) (*http.Request,
error)`.  The underlying `Validate` call's result is abstracted as the
`Except` argument. -/
def wrapValidatorKeyRun {V E : Type} (vres : Except E V) (w : World V)
    (r : Req) (t name : String) : World V × Req × Option E :=
  match vres with
  | Except.error e => (w, r, some e)
  | Except.ok val =>
    let a := withValidated w r t val
    let b := withValid a.1 a.2 t name val
    (b.1, b.2, none)

/-- `WrapValidatorOnlyKey`: stores ONLY by key. -/
def wrapValidatorOnlyKeyRun {V E : Type} (vres : Except E V) (w : World V)
    (r : Req) (t name : String) : World V × Req × Option E :=
  match vres with
  | Except.error e => (w, r, some e)
  | Except.ok val =>
    let b := withValid w r t name val
    (b.1, b.2, none)

/-- `KSV` (src/vii/keyed_validator.go): on success, `ProvideKey` with the
validator's own key. -/
def ksvRun {V E : Type} (vres : Except E V) (w : World V) (r : Req)
    (t name : String) : World V × Req × Option E :=
  match vres with
  | Except.error e => (w, r, some e)
  | Except.ok val =>
    let b := provideKey w r t name val
    (b.1, b.2, none)

/-! ## WebSocket phase driver (`serveWebSocket` and `dispatchWS`,
src/vii/app.go lines 228–280 and the current revision's `dispatchWS` /
`hasAnyWSMatch`)

The transport receive stream is embedded as the list of frames successfully
read before the first failing `websocket.Message.Receive`, plus that
terminal read error.  The dispatch of one phase (everything `dispatchWS`
does, including the pipeline run whose error is discarded by the caller)
is abstracted as a function whose result the driver ignores, exactly as the
Go code discards it. -/

/-- A dispatched connection phase with its payload. -/
inductive WSEv (M E : Type) where
  | openEv
  | messageEv (m : M)
  | closeEv (reason : E)
deriving DecidableEq, Repr

/-- Result of one phase dispatch (handled fine, handler reported an error
through the error hooks, or dropped); the connection driver never looks at
it. -/
inductive DispatchRes where
  | handledOk
  | handledErr
  | dropped
deriving DecidableEq, Repr

/-- The receive loop of `serveWebSocket`: receive until the transport read
fails, dispatching one MESSAGE per received frame; the terminating read
error becomes `closeErr`. -/
def wsReceiveLoop {M E : Type} (dispatch : WSEv M E → DispatchRes)
    (inbound : List M) (term : E) : List (WSEv M E) × E :=
  match inbound with
  | [] => ([], term)
  | m :: rest =>
    let _ := dispatch (WSEv.messageEv m)
    let r := wsReceiveLoop dispatch rest term
    (WSEv.messageEv m :: r.1, r.2)

/-- The per-connection handler of `serveWebSocket`: dispatch OPEN once, run
the receive loop, then dispatch CLOSE once carrying the terminal read
error.  Returns the sequence of dispatched phases. -/
def serveWebSocketModel {M E : Type} (dispatch : WSEv M E → DispatchRes)
    (inbound : List M) (term : E) : List (WSEv M E) :=
  let _ := dispatch WSEv.openEv
  let r := wsReceiveLoop dispatch inbound term
  let _ := dispatch (WSEv.closeEv r.2)
  (WSEv.openEv :: r.1) ++ [WSEv.closeEv r.2]

/-- The per-method route registry (`a.mux`): which route a method/path pair
resolves to.  `ServeMux` pattern matching is abstracted to a lookup. -/
abbrev Registry (RT : Type) := List ((String × String) × RT)

/-- Registry lookup: first matching (method, path) entry. -/
def regLookup {RT : Type} : Registry RT → String → String → Option RT
  | [], _, _ => none
  | ((m, p), rt) :: rest, method, path =>
    if method = m ∧ path = p then some rt else regLookup rest method path

/-- `dispatchWS` (current revision): serve the phase's own mux entry when
one matches; otherwise, for OPEN and MESSAGE only, fall back to the GET
entry; otherwise drop the dispatch.  Returns the route the dispatch went
to, `none` when dropped. -/
def dispatchWS {RT : Type} (reg : Registry RT) (phase path : String) :
    Option RT :=
  match regLookup reg phase path with
  | some rt => some rt
  | none =>
    if phase = "OPEN" ∨ phase = "MESSAGE" then
      regLookup reg "GET" path
    else none

/-! ## Concrete inputs used by witnesses and counterexamples -/

/-- Service node with trivially succeeding hooks. -/
def okNode : Node Unit :=
  { validators := [], before := fun s => (s, Outcome.ok),
    after := fun _ => Outcome.ok }

/-- Service node whose `After` fails. -/
def afterFailNode : Node Unit :=
  { validators := [], before := fun s => (s, Outcome.ok),
    after := fun _ => Outcome.fail }

/-- Service node whose `Before` halts. -/
def beforeHaltNode : Node Unit :=
  { validators := [], before := fun s => (s, Outcome.halt),
    after := fun _ => Outcome.ok }

/-- Pipeline where everything succeeds except the second node's `After`. -/
def afterFailPipe : Pipeline Unit :=
  { hasAppErr := true, attachApp := id, routeValidators := [],
    nodes := [okNode, afterFailNode], handler := fun _ => Outcome.ok }

/-- Pipeline where every stage succeeds (two nodes). -/
def allOkPipe : Pipeline Unit :=
  { hasAppErr := true, attachApp := id, routeValidators := [],
    nodes := [okNode, okNode], handler := fun _ => Outcome.ok }

/-- Pipeline whose single node's `Before` halts. -/
def beforeHaltPipe : Pipeline Unit :=
  { hasAppErr := true, attachApp := id, routeValidators := [],
    nodes := [beforeHaltNode], handler := fun _ => Outcome.ok }

/-- A request reference is valid in a world when it points inside the heap
(every reference produced by the store operations is). -/
def validRef {V : Type} (w : World V) (r : Req) : Prop :=
  ∀ i, r = some i → i < w.heap.length

/-- Concrete world used by the store witnesses: one cell holding a by-type
binding and a by-key binding. -/
def cellW : World Nat :=
  ⟨[⟨[("A", 5)], [(keyString "A" "k", 6)]⟩]⟩

/-- Concrete registry used by the dispatch witness. -/
def wsReg : Registry Nat :=
  [(("GET", "/ws"), 7), (("CLOSE", "/c"), 9)]

/-- Mount-time compilation followed by a request: `Mount` resolves the
service graph (`compilePipeline` → `resolveServices`) before any request
can run, so a resolution failure (the Go panic) surfaces at registration
and no pipeline — in particular no `Before` — ever executes. -/
def resolveThenServe (u : Univ) (roots : List Nat)
    (mkPipe : List SvcDecl → Pipeline σ) (s : σ) :
    Except ResolveErr (List Ev × ServeOut) :=
  match resolveServices u roots with
  | Except.error e => Except.error e
  | Except.ok nodes => Except.ok (serve (mkPipe nodes) s)

/-- Cyclic universe: service A depends on B, B depends back on A. -/
def cycU : Univ :=
  [⟨"A", none, [1]⟩, ⟨"B", none, [0]⟩]

/-- Pipeline builder ignoring the resolved nodes (used only to witness that
a resolution error reaches the caller before anything runs). -/
def constPipe : List SvcDecl → Pipeline Unit := fun _ => allOkPipe

/-- Universe with two keyed instances of the same type sharing one
dependency: `L|x` and `L|y` both depend on `D`. -/
def dedupU : Univ :=
  [⟨"L", some "x", [2]⟩, ⟨"L", some "y", [2]⟩, ⟨"D", none, []⟩]

/-- Two independent services, used to witness root-order preservation. -/
def orderU : Univ :=
  [⟨"A", none, []⟩, ⟨"B", none, []⟩]

/-- Resolution of `dedupU` from roots `[0, 1, 2]`: the shared dependency
first, then the two keyed instances, each exactly once. -/
def dedupOut : List SvcDecl :=
  [⟨"D", none, []⟩, ⟨"L", some "x", [2]⟩, ⟨"L", some "y", [2]⟩]

/-! # Theorems -/

/-! ## Trace bookkeeping lemmas -/

theorem beforeTrace_append (l1 l2 : List Ev) :
    beforeTrace (l1 ++ l2) = beforeTrace l1 ++ beforeTrace l2 := by
  simp [beforeTrace, List.filterMap_append]

theorem afterTrace_append (l1 l2 : List Ev) :
    afterTrace (l1 ++ l2) = afterTrace l1 ++ afterTrace l2 := by
  simp [afterTrace, List.filterMap_append]

theorem hookCount_append (l1 l2 : List Ev) :
    hookCount (l1 ++ l2) = hookCount l1 + hookCount l2 := by
  simp [hookCount, List.filter_append]

theorem beforeTrace_hookEvs (h : Bool) : beforeTrace (hookEvs h) = [] := by
  cases h <;> rfl

theorem afterTrace_hookEvs (h : Bool) : afterTrace (hookEvs h) = [] := by
  cases h <;> rfl

theorem beforeTrace_cons_none (e : Ev) (h : evBeforeIdx e = none)
    (tr : List Ev) : beforeTrace (e :: tr) = beforeTrace tr := by
  simp [beforeTrace, List.filterMap_cons, h]

theorem beforeTrace_cons_some (e : Ev) (i : Nat) (h : evBeforeIdx e = some i)
    (tr : List Ev) : beforeTrace (e :: tr) = i :: beforeTrace tr := by
  simp [beforeTrace, List.filterMap_cons, h]

theorem afterTrace_cons_none (e : Ev) (h : evAfterIdx e = none)
    (tr : List Ev) : afterTrace (e :: tr) = afterTrace tr := by
  simp [afterTrace, List.filterMap_cons, h]

theorem afterTrace_cons_some (e : Ev) (i : Nat) (h : evAfterIdx e = some i)
    (tr : List Ev) : afterTrace (e :: tr) = i :: afterTrace tr := by
  simp [afterTrace, List.filterMap_cons, h]

theorem hookCount_cons_false (e : Ev) (h : isHookEv e = false)
    (tr : List Ev) : hookCount (e :: tr) = hookCount tr := by
  simp [hookCount, List.filter_cons, h]

/-! ## Validator-loop lemmas -/

theorem runVals_beforeTrace (hasApp : Bool) (mk : Nat → Ev)
    (hmk : ∀ j, evBeforeIdx (mk j) = none) :
    ∀ (vs : List (Option (σ → σ × Outcome))) (i : Nat) (s : σ),
      beforeTrace (runVals hasApp mk vs i s).1 = [] := by
  intro vs
  induction vs with
  | nil => intro i s; rfl
  | cons hd tl ih =>
    intro i s
    cases hd with
    | none => simpa [runVals] using ih (i + 1) s
    | some v =>
      rcases hv : v s with ⟨s1, o⟩
      cases o with
      | ok =>
        show beforeTrace ((runVals hasApp mk (some v :: tl) i s).1) = []
        simp only [runVals, hv]
        rw [beforeTrace_cons_none (mk i) (hmk i)]
        exact ih (i + 1) s1
      | fail =>
        show beforeTrace ((runVals hasApp mk (some v :: tl) i s).1) = []
        simp only [runVals, hv]
        rw [beforeTrace_cons_none (mk i) (hmk i), beforeTrace_hookEvs]
      | halt =>
        show beforeTrace ((runVals hasApp mk (some v :: tl) i s).1) = []
        simp only [runVals, hv]
        rw [beforeTrace_cons_none (mk i) (hmk i)]
        rfl

theorem runVals_afterTrace (hasApp : Bool) (mk : Nat → Ev)
    (hmk : ∀ j, evAfterIdx (mk j) = none) :
    ∀ (vs : List (Option (σ → σ × Outcome))) (i : Nat) (s : σ),
      afterTrace (runVals hasApp mk vs i s).1 = [] := by
  intro vs
  induction vs with
  | nil => intro i s; rfl
  | cons hd tl ih =>
    intro i s
    cases hd with
    | none => simpa [runVals] using ih (i + 1) s
    | some v =>
      rcases hv : v s with ⟨s1, o⟩
      cases o with
      | ok =>
        show afterTrace ((runVals hasApp mk (some v :: tl) i s).1) = []
        simp only [runVals, hv]
        rw [afterTrace_cons_none (mk i) (hmk i)]
        exact ih (i + 1) s1
      | fail =>
        show afterTrace ((runVals hasApp mk (some v :: tl) i s).1) = []
        simp only [runVals, hv]
        rw [afterTrace_cons_none (mk i) (hmk i), afterTrace_hookEvs]
      | halt =>
        show afterTrace ((runVals hasApp mk (some v :: tl) i s).1) = []
        simp only [runVals, hv]
        rw [afterTrace_cons_none (mk i) (hmk i)]
        rfl

theorem runVals_hooks (hasApp : Bool) (mk : Nat → Ev)
    (hmk : ∀ j, isHookEv (mk j) = false) :
    ∀ (vs : List (Option (σ → σ × Outcome))) (i : Nat) (s : σ),
      (runVals hasApp mk vs i s).2 ≠ RunRes.failed →
      hookCount (runVals hasApp mk vs i s).1 = 0 := by
  intro vs
  induction vs with
  | nil => intro i s _; rfl
  | cons hd tl ih =>
    intro i s hne
    cases hd with
    | none => simpa [runVals] using ih (i + 1) s (by simpa [runVals] using hne)
    | some v =>
      rcases hv : v s with ⟨s1, o⟩
      cases o with
      | ok =>
        have h2 := ih (i + 1) s1 (by simpa [runVals, hv] using hne)
        show hookCount ((runVals hasApp mk (some v :: tl) i s).1) = 0
        simp only [runVals, hv]
        rw [hookCount_cons_false (mk i) (hmk i)]
        exact h2
      | fail => exact absurd (by simp [runVals, hv]) hne
      | halt =>
        show hookCount ((runVals hasApp mk (some v :: tl) i s).1) = 0
        simp only [runVals, hv]
        rw [hookCount_cons_false (mk i) (hmk i)]
        rfl

/-! ## Node-loop lemmas -/

theorem runNodes_afterTrace (hasApp : Bool) :
    ∀ (ns : List (Node σ)) (i : Nat) (s : σ),
      afterTrace (runNodes hasApp ns i s).1 = [] := by
  intro ns
  induction ns with
  | nil => intro i s; rfl
  | cons n tl ih =>
    intro i s
    rcases hrv : runVals hasApp (Ev.nodeVal i) n.validators 0 s with ⟨t1, r1⟩
    have ht1 : afterTrace t1 = [] := by
      have h := runVals_afterTrace hasApp (Ev.nodeVal i) (fun _ => rfl)
        n.validators 0 s
      rw [hrv] at h
      exact h
    cases r1 with
    | cont s1 =>
      rcases hb : n.before s1 with ⟨s2, o⟩
      cases o with
      | ok =>
        show afterTrace ((runNodes hasApp (n :: tl) i s).1) = []
        simp only [runNodes, hrv, hb]
        rw [afterTrace_append, ht1, afterTrace_cons_none (Ev.before i) rfl]
        simpa using ih (i + 1) s2
      | fail =>
        show afterTrace ((runNodes hasApp (n :: tl) i s).1) = []
        simp only [runNodes, hrv, hb]
        rw [afterTrace_append, ht1, afterTrace_cons_none (Ev.before i) rfl,
          afterTrace_hookEvs]
        rfl
      | halt =>
        show afterTrace ((runNodes hasApp (n :: tl) i s).1) = []
        simp only [runNodes, hrv, hb]
        rw [afterTrace_append, ht1]
        rfl
    | halted =>
      show afterTrace ((runNodes hasApp (n :: tl) i s).1) = []
      simp only [runNodes, hrv]
      exact ht1
    | failed =>
      show afterTrace ((runNodes hasApp (n :: tl) i s).1) = []
      simp only [runNodes, hrv]
      exact ht1

theorem runNodes_beforeTrace_cont (hasApp : Bool) :
    ∀ (ns : List (Node σ)) (i : Nat) (s : σ) (s3 : σ),
      (runNodes hasApp ns i s).2 = RunRes.cont s3 →
      beforeTrace (runNodes hasApp ns i s).1 = List.range' i ns.length := by
  intro ns
  induction ns with
  | nil => intro i s s3 _; rfl
  | cons n tl ih =>
    intro i s s3 hc
    rcases hrv : runVals hasApp (Ev.nodeVal i) n.validators 0 s with ⟨t1, r1⟩
    have ht1 : beforeTrace t1 = [] := by
      have h := runVals_beforeTrace hasApp (Ev.nodeVal i) (fun _ => rfl)
        n.validators 0 s
      rw [hrv] at h
      exact h
    cases r1 with
    | cont s1 =>
      rcases hb : n.before s1 with ⟨s2, o⟩
      cases o with
      | ok =>
        have hrec : (runNodes hasApp tl (i + 1) s2).2 = RunRes.cont s3 := by
          have h := hc
          simp only [runNodes, hrv, hb] at h
          exact h
        show beforeTrace ((runNodes hasApp (n :: tl) i s).1) =
          List.range' i (n :: tl).length
        simp only [runNodes, hrv, hb]
        rw [beforeTrace_append, ht1, beforeTrace_cons_some (Ev.before i) i rfl,
          ih (i + 1) s2 s3 hrec]
        rfl
      | fail =>
        simp only [runNodes, hrv, hb] at hc
        cases hc
      | halt =>
        simp only [runNodes, hrv, hb] at hc
        cases hc
    | halted =>
      simp only [runNodes, hrv] at hc
      cases hc
    | failed =>
      simp only [runNodes, hrv] at hc
      cases hc

theorem runNodes_hooks (hasApp : Bool) :
    ∀ (ns : List (Node σ)) (i : Nat) (s : σ),
      (runNodes hasApp ns i s).2 ≠ RunRes.failed →
      hookCount (runNodes hasApp ns i s).1 = 0 := by
  intro ns
  induction ns with
  | nil => intro i s _; rfl
  | cons n tl ih =>
    intro i s hne
    rcases hrv : runVals hasApp (Ev.nodeVal i) n.validators 0 s with ⟨t1, r1⟩
    cases r1 with
    | cont s1 =>
      have ht1 : hookCount t1 = 0 := by
        have h := runVals_hooks hasApp (Ev.nodeVal i) (fun _ => rfl)
          n.validators 0 s (by rw [hrv]; intro h; cases h)
        rw [hrv] at h
        exact h
      rcases hb : n.before s1 with ⟨s2, o⟩
      cases o with
      | ok =>
        have hrec : hookCount (runNodes hasApp tl (i + 1) s2).1 = 0 := by
          refine ih (i + 1) s2 ?_
          intro hfail
          refine hne ?_
          simp only [runNodes, hrv, hb]
          exact hfail
        show hookCount ((runNodes hasApp (n :: tl) i s).1) = 0
        simp only [runNodes, hrv, hb]
        rw [hookCount_append, ht1, hookCount_cons_false (Ev.before i) rfl, hrec]
      | fail =>
        exact absurd (by simp [runNodes, hrv, hb]) hne
      | halt =>
        show hookCount ((runNodes hasApp (n :: tl) i s).1) = 0
        simp only [runNodes, hrv, hb]
        rw [hookCount_append, ht1]
        rfl
    | halted =>
      have ht1 : hookCount t1 = 0 := by
        have h := runVals_hooks hasApp (Ev.nodeVal i) (fun _ => rfl)
          n.validators 0 s (by rw [hrv]; intro h; cases h)
        rw [hrv] at h
        exact h
      show hookCount ((runNodes hasApp (n :: tl) i s).1) = 0
      simp only [runNodes, hrv]
      exact ht1
    | failed =>
      exact absurd (by simp [runNodes, hrv]) hne

/-! ## After-loop lemmas -/

theorem runAfters_beforeTrace (hasApp : Bool) :
    ∀ (l : List (Nat × Node σ)) (s : σ),
      beforeTrace (runAfters hasApp l s).1 = [] := by
  intro l
  induction l with
  | nil => intro s; rfl
  | cons hd tl ih =>
    intro s
    rcases hd with ⟨i, n⟩
    cases ha : n.after s with
    | ok =>
      show beforeTrace ((runAfters hasApp ((i, n) :: tl) s).1) = []
      simp only [runAfters, ha]
      rw [beforeTrace_cons_none (Ev.after i) rfl]
      exact ih s
    | fail =>
      show beforeTrace ((runAfters hasApp ((i, n) :: tl) s).1) = []
      simp only [runAfters, ha]
      rw [beforeTrace_cons_none (Ev.after i) rfl, beforeTrace_hookEvs]
    | halt =>
      show beforeTrace ((runAfters hasApp ((i, n) :: tl) s).1) = []
      simp only [runAfters, ha]
      rw [beforeTrace_cons_none (Ev.after i) rfl]
      rfl

theorem runAfters_take (hasApp : Bool) :
    ∀ (l : List (Nat × Node σ)) (s : σ),
      ∃ k, afterTrace (runAfters hasApp l s).1 = (l.map Prod.fst).take k := by
  intro l
  induction l with
  | nil => intro s; exact ⟨0, rfl⟩
  | cons hd tl ih =>
    intro s
    rcases hd with ⟨i, n⟩
    cases ha : n.after s with
    | ok =>
      rcases ih s with ⟨k, hk⟩
      refine ⟨k + 1, ?_⟩
      show afterTrace ((runAfters hasApp ((i, n) :: tl) s).1) =
        (((i, n) :: tl).map Prod.fst).take (k + 1)
      simp only [runAfters, ha]
      rw [afterTrace_cons_some (Ev.after i) i rfl, hk]
      rfl
    | fail =>
      refine ⟨1, ?_⟩
      show afterTrace ((runAfters hasApp ((i, n) :: tl) s).1) =
        (((i, n) :: tl).map Prod.fst).take 1
      simp only [runAfters, ha]
      rw [afterTrace_cons_some (Ev.after i) i rfl, afterTrace_hookEvs]
      rfl
    | halt =>
      refine ⟨1, ?_⟩
      show afterTrace ((runAfters hasApp ((i, n) :: tl) s).1) =
        (((i, n) :: tl).map Prod.fst).take 1
      simp only [runAfters, ha]
      rw [afterTrace_cons_some (Ev.after i) i rfl]
      rfl

theorem runAfters_ok (hasApp : Bool) :
    ∀ (l : List (Nat × Node σ)) (s : σ),
      (runAfters hasApp l s).2 = ServeOut.ok →
      afterTrace (runAfters hasApp l s).1 = l.map Prod.fst := by
  intro l
  induction l with
  | nil => intro s _; rfl
  | cons hd tl ih =>
    intro s hok
    rcases hd with ⟨i, n⟩
    cases ha : n.after s with
    | ok =>
      have hrec : (runAfters hasApp tl s).2 = ServeOut.ok := by
        have h := hok
        simp only [runAfters, ha] at h
        exact h
      show afterTrace ((runAfters hasApp ((i, n) :: tl) s).1) =
        ((i, n) :: tl).map Prod.fst
      simp only [runAfters, ha]
      rw [afterTrace_cons_some (Ev.after i) i rfl, ih s hrec]
      rfl
    | fail =>
      simp only [runAfters, ha] at hok
      cases hok
    | halt =>
      simp only [runAfters, ha] at hok
      cases hok

theorem runAfters_hooks (hasApp : Bool) :
    ∀ (l : List (Nat × Node σ)) (s : σ),
      (runAfters hasApp l s).2 ≠ ServeOut.failed →
      hookCount (runAfters hasApp l s).1 = 0 := by
  intro l
  induction l with
  | nil => intro s _; rfl
  | cons hd tl ih =>
    intro s hne
    rcases hd with ⟨i, n⟩
    cases ha : n.after s with
    | ok =>
      have hrec : hookCount (runAfters hasApp tl s).1 = 0 := by
        refine ih s ?_
        intro hfail
        refine hne ?_
        simp only [runAfters, ha]
        exact hfail
      show hookCount ((runAfters hasApp ((i, n) :: tl) s).1) = 0
      simp only [runAfters, ha]
      rw [hookCount_cons_false (Ev.after i) rfl]
      exact hrec
    | fail => exact absurd (by simp [runAfters, ha]) hne
    | halt =>
      show hookCount ((runAfters hasApp ((i, n) :: tl) s).1) = 0
      simp only [runAfters, ha]
      rw [hookCount_cons_false (Ev.after i) rfl]
      rfl

/-! ## Claim C1: After hooks versus Before hooks -/

theorem afterTrace_enum_reverse (p : Pipeline σ) :
    (p.nodes.enum.reverse).map Prod.fst = (List.range p.nodes.length).reverse := by
  rw [List.map_reverse, List.enum_map_fst]

/-- C1 (corrected).  In every run of the pipeline executor
(`compiledPipeline.serve`), the executed `After` hooks are an initial
segment of the reverse of the executed `Before` hooks; when the run fully
succeeds (`ServeOut.ok` — every validator, every `Before`, the handler and
every `After` returned nil), `Before` ran for every resolved node in order
and `After` ran for every resolved node in exactly the reverse order.  (The
claim as frozen also asserts the full reverse whenever the handler
succeeds, which fails when an `After` itself errors: see the
counterexample.) -/
theorem c1_after_reverse_of_before (p : Pipeline σ) (s : σ) :
    (∃ k, afterTrace (serve p s).1 =
      ((beforeTrace (serve p s).1).reverse).take k) ∧
    ((serve p s).2 = ServeOut.ok →
      beforeTrace (serve p s).1 = List.range p.nodes.length ∧
      afterTrace (serve p s).1 = (List.range p.nodes.length).reverse) := by
  rcases hrv : runVals p.hasAppErr Ev.routeVal p.routeValidators 0
    (p.attachApp s) with ⟨t1, r1⟩
  have hbt1 : beforeTrace t1 = [] := by
    have h := runVals_beforeTrace p.hasAppErr Ev.routeVal (fun _ => rfl)
      p.routeValidators 0 (p.attachApp s)
    rw [hrv] at h
    exact h
  have hat1 : afterTrace t1 = [] := by
    have h := runVals_afterTrace p.hasAppErr Ev.routeVal (fun _ => rfl)
      p.routeValidators 0 (p.attachApp s)
    rw [hrv] at h
    exact h
  cases r1 with
  | cont s1 =>
    rcases hrn : runNodes p.hasAppErr p.nodes 0 s1 with ⟨t2, r2⟩
    have hat2 : afterTrace t2 = [] := by
      have h := runNodes_afterTrace p.hasAppErr p.nodes 0 s1
      rw [hrn] at h
      exact h
    cases r2 with
    | cont s2 =>
      have hbt2 : beforeTrace t2 = List.range' 0 p.nodes.length := by
        have h := runNodes_beforeTrace_cont p.hasAppErr p.nodes 0 s1 s2
          (by rw [hrn])
        rw [hrn] at h
        exact h
      cases hh : p.handler s2 with
      | ok =>
        rcases hra : runAfters p.hasAppErr p.nodes.enum.reverse s2 with ⟨t3, r3⟩
        have hserve : serve p s = (t1 ++ t2 ++ Ev.handle :: t3, r3) := by
          simp [serve, hrv, hrn, hh, hra]
        have hbt : beforeTrace (serve p s).1 = List.range p.nodes.length := by
          rw [hserve]
          simp only [beforeTrace_append, hbt1, hbt2,
            beforeTrace_cons_none Ev.handle rfl]
          have h := runAfters_beforeTrace p.hasAppErr p.nodes.enum.reverse s2
          rw [hra] at h
          rw [h, List.range_eq_range']
          simp
        have hat : afterTrace (serve p s).1 = afterTrace t3 := by
          rw [hserve]
          simp only [afterTrace_append, hat1, hat2,
            afterTrace_cons_none Ev.handle rfl]
          simp
        constructor
        · have h := runAfters_take p.hasAppErr p.nodes.enum.reverse s2
          rw [hra] at h
          rcases h with ⟨k, hk⟩
          refine ⟨k, ?_⟩
          rw [hat, hk, afterTrace_enum_reverse, hbt]
        · intro hok
          have hr3 : r3 = ServeOut.ok := by
            rw [hserve] at hok
            exact hok
          have h := runAfters_ok p.hasAppErr p.nodes.enum.reverse s2
            (by rw [hra, hr3])
          rw [hra] at h
          refine ⟨hbt, ?_⟩
          rw [hat, h, afterTrace_enum_reverse]
      | halt =>
        have hserve : serve p s = (t1 ++ t2 ++ [Ev.handle], ServeOut.halted) := by
          simp [serve, hrv, hrn, hh]
        constructor
        · refine ⟨0, ?_⟩
          rw [hserve]
          simp only [afterTrace_append, hat1, hat2]
          rfl
        · intro hok
          rw [hserve] at hok
          cases hok
      | fail =>
        have hserve : serve p s =
            (t1 ++ t2 ++ Ev.handle :: hookEvs p.hasAppErr, ServeOut.failed) := by
          simp [serve, hrv, hrn, hh]
        constructor
        · refine ⟨0, ?_⟩
          rw [hserve]
          simp only [afterTrace_append, hat1, hat2,
            afterTrace_cons_none Ev.handle rfl, afterTrace_hookEvs]
          rfl
        · intro hok
          rw [hserve] at hok
          cases hok
    | halted =>
      have hserve : serve p s = (t1 ++ t2, ServeOut.halted) := by
        simp [serve, hrv, hrn]
      constructor
      · refine ⟨0, ?_⟩
        rw [hserve]
        simp only [afterTrace_append, hat1, hat2]
        rfl
      · intro hok
        rw [hserve] at hok
        cases hok
    | failed =>
      have hserve : serve p s = (t1 ++ t2, ServeOut.failed) := by
        simp [serve, hrv, hrn]
      constructor
      · refine ⟨0, ?_⟩
        rw [hserve]
        simp only [afterTrace_append, hat1, hat2]
        rfl
      · intro hok
        rw [hserve] at hok
        cases hok
  | halted =>
    have hserve : serve p s = (t1, ServeOut.halted) := by
      simp [serve, hrv]
    constructor
    · refine ⟨0, ?_⟩
      rw [hserve]
      simp only [hat1]
      rfl
    · intro hok
      rw [hserve] at hok
      cases hok
  | failed =>
    have hserve : serve p s = (t1, ServeOut.failed) := by
      simp [serve, hrv]
    constructor
    · refine ⟨0, ?_⟩
      rw [hserve]
      simp only [hat1]
      rfl
    · intro hok
      rw [hserve] at hok
      cases hok

/-- C1 counterexample: with two services whose validators, `Before` hooks
and the handler all succeed but the second service's `After` fails, the
`After` hooks that execute are `[1]`, not the reverse `[1, 0]` of the
executed `Before` hooks — `After` does not run for every resolved node even
though every validator, every `Before` and the handler succeeded. -/
theorem c1_counterexample :
    beforeTrace (serve afterFailPipe ()).1 = [0, 1] ∧
    Ev.handle ∈ (serve afterFailPipe ()).1 ∧
    afterTrace (serve afterFailPipe ()).1 = [1] ∧
    afterTrace (serve afterFailPipe ()).1 ≠
      (beforeTrace (serve afterFailPipe ()).1).reverse := by
  refine ⟨?_, ?_, ?_, ?_⟩ <;> decide

/-- C1 witness: the fully successful two-node run, where the executor
visibly runs `Before` as `[0, 1]` and `After` as `[1, 0]`. -/
theorem c1_after_reverse_of_before_witness :
    (serve allOkPipe ()).2 = ServeOut.ok ∧
    (beforeTrace (serve allOkPipe ()).1 = List.range allOkPipe.nodes.length ∧
      afterTrace (serve allOkPipe ()).1 =
        (List.range allOkPipe.nodes.length).reverse) :=
  ⟨by decide, (c1_after_reverse_of_before allOkPipe ()).2 (by decide)⟩

/-! ## Claim C2: halt stops the pipeline with no error hooks -/

theorem seqStep_shift (t : List Ev) (e : Ev) (a : List Ev × RunRes σ)
    (f : σ → List Ev × RunRes σ) :
    seqStep (t ++ e :: a.1, a.2) f =
      (t ++ e :: (seqStep a f).1, (seqStep a f).2) := by
  rcases a with ⟨t2, r⟩
  cases r with
  | cont s => simp [seqStep]
  | halted => rfl
  | failed => rfl

theorem runVals_append (hasApp : Bool) (mk : Nat → Ev) :
    ∀ (l1 l2 : List (Option (σ → σ × Outcome))) (i : Nat) (s : σ),
      runVals hasApp mk (l1 ++ l2) i s =
        seqStep (runVals hasApp mk l1 i s)
          (fun s1 => runVals hasApp mk l2 (i + l1.length) s1) := by
  intro l1
  induction l1 with
  | nil =>
    intro l2 i s
    simp [runVals, seqStep]
  | cons hd tl ih =>
    intro l2 i s
    have hlen : i + (tl.length + 1) = i + 1 + tl.length := by omega
    cases hd with
    | none =>
      show runVals hasApp mk (tl ++ l2) (i + 1) s = _
      rw [ih l2 (i + 1) s]
      simp only [runVals, List.length_cons, hlen]
    | some v =>
      rcases hv : v s with ⟨s1, o⟩
      cases o with
      | ok =>
        have hstep : runVals hasApp mk (some v :: (tl ++ l2)) i s =
            (mk i :: (runVals hasApp mk (tl ++ l2) (i + 1) s1).1,
             (runVals hasApp mk (tl ++ l2) (i + 1) s1).2) := by
          simp [runVals, hv]
        have hrhs : runVals hasApp mk (some v :: tl) i s =
            (mk i :: (runVals hasApp mk tl (i + 1) s1).1,
             (runVals hasApp mk tl (i + 1) s1).2) := by
          simp [runVals, hv]
        have h := seqStep_shift ([] : List Ev) (mk i)
          (runVals hasApp mk tl (i + 1) s1)
          (fun s2 => runVals hasApp mk l2 (i + 1 + tl.length) s2)
        simp only [List.nil_append] at h
        show runVals hasApp mk (some v :: (tl ++ l2)) i s = _
        rw [hstep, ih l2 (i + 1) s1]
        simp only [List.length_cons, hlen]
        rw [hrhs, h]
      | halt => simp [runVals, hv, seqStep]
      | fail => simp [runVals, hv, seqStep]

theorem runNodes_append (hasApp : Bool) :
    ∀ (l1 l2 : List (Node σ)) (i : Nat) (s : σ),
      runNodes hasApp (l1 ++ l2) i s =
        seqStep (runNodes hasApp l1 i s)
          (fun s1 => runNodes hasApp l2 (i + l1.length) s1) := by
  intro l1
  induction l1 with
  | nil =>
    intro l2 i s
    simp [runNodes, seqStep]
  | cons n tl ih =>
    intro l2 i s
    have hlen : i + (tl.length + 1) = i + 1 + tl.length := by omega
    rcases hrv : runVals hasApp (Ev.nodeVal i) n.validators 0 s with ⟨t1, r1⟩
    cases r1 with
    | cont s1 =>
      rcases hb : n.before s1 with ⟨s2, o⟩
      cases o with
      | ok =>
        have hstep : runNodes hasApp (n :: (tl ++ l2)) i s =
            (t1 ++ Ev.before i :: (runNodes hasApp (tl ++ l2) (i + 1) s2).1,
             (runNodes hasApp (tl ++ l2) (i + 1) s2).2) := by
          simp [runNodes, hrv, hb]
        have hrhs : runNodes hasApp (n :: tl) i s =
            (t1 ++ Ev.before i :: (runNodes hasApp tl (i + 1) s2).1,
             (runNodes hasApp tl (i + 1) s2).2) := by
          simp [runNodes, hrv, hb]
        have h := seqStep_shift t1 (Ev.before i)
          (runNodes hasApp tl (i + 1) s2)
          (fun s3 => runNodes hasApp l2 (i + 1 + tl.length) s3)
        show runNodes hasApp (n :: (tl ++ l2)) i s = _
        rw [hstep, ih l2 (i + 1) s2]
        simp only [List.length_cons, hlen]
        rw [hrhs, h]
      | halt => simp [runNodes, hrv, hb, seqStep]
      | fail => simp [runNodes, hrv, hb, seqStep]
    | halted => simp [runNodes, hrv, seqStep]
    | failed => simp [runNodes, hrv, seqStep]

/-- C2 (confirmed).  A halt (`ErrHalt`) returned by any route-level
validator, any service validator, any service `Before`, or the handler
stops `compiledPipeline.serve` immediately: the emitted trace ends at the
halting stage (no later validator, `Before`, handler or `After` event, and
in particular no error-hook event), and the serve result is the clean
`halted` outcome.  Part one states generally that a halted run never
invokes the route or application error hooks. -/
theorem c2_halt_stops_pipeline (p : Pipeline σ) (s : σ) :
    ((serve p s).2 = ServeOut.halted → hookCount (serve p s).1 = 0) ∧
    (∀ (l1 : List (Option (σ → σ × Outcome))) (v : σ → σ × Outcome)
        (l2 : List (Option (σ → σ × Outcome))) (t1 : List Ev) (s1 : σ),
      p.routeValidators = l1 ++ some v :: l2 →
      runVals p.hasAppErr Ev.routeVal l1 0 (p.attachApp s) =
        (t1, RunRes.cont s1) →
      (v s1).2 = Outcome.halt →
      serve p s = (t1 ++ [Ev.routeVal l1.length], ServeOut.halted)) ∧
    (∀ (n1 : List (Node σ)) (nd : Node σ) (n2 : List (Node σ))
        (l1 : List (Option (σ → σ × Outcome))) (v : σ → σ × Outcome)
        (l2 : List (Option (σ → σ × Outcome)))
        (t1 : List Ev) (s1 : σ) (t2 : List Ev) (s2 : σ) (t3 : List Ev) (s3 : σ),
      p.nodes = n1 ++ nd :: n2 →
      nd.validators = l1 ++ some v :: l2 →
      runVals p.hasAppErr Ev.routeVal p.routeValidators 0 (p.attachApp s) =
        (t1, RunRes.cont s1) →
      runNodes p.hasAppErr n1 0 s1 = (t2, RunRes.cont s2) →
      runVals p.hasAppErr (Ev.nodeVal n1.length) l1 0 s2 =
        (t3, RunRes.cont s3) →
      (v s3).2 = Outcome.halt →
      serve p s = (t1 ++ t2 ++ t3 ++ [Ev.nodeVal n1.length l1.length],
        ServeOut.halted)) ∧
    (∀ (n1 : List (Node σ)) (nd : Node σ) (n2 : List (Node σ))
        (t1 : List Ev) (s1 : σ) (t2 : List Ev) (s2 : σ) (t3 : List Ev) (s3 : σ),
      p.nodes = n1 ++ nd :: n2 →
      runVals p.hasAppErr Ev.routeVal p.routeValidators 0 (p.attachApp s) =
        (t1, RunRes.cont s1) →
      runNodes p.hasAppErr n1 0 s1 = (t2, RunRes.cont s2) →
      runVals p.hasAppErr (Ev.nodeVal n1.length) nd.validators 0 s2 =
        (t3, RunRes.cont s3) →
      (nd.before s3).2 = Outcome.halt →
      serve p s = (t1 ++ t2 ++ t3 ++ [Ev.before n1.length], ServeOut.halted)) ∧
    (∀ (t1 : List Ev) (s1 : σ) (t2 : List Ev) (s2 : σ),
      runVals p.hasAppErr Ev.routeVal p.routeValidators 0 (p.attachApp s) =
        (t1, RunRes.cont s1) →
      runNodes p.hasAppErr p.nodes 0 s1 = (t2, RunRes.cont s2) →
      p.handler s2 = Outcome.halt →
      serve p s = (t1 ++ t2 ++ [Ev.handle], ServeOut.halted)) := by
  refine ⟨?_, ?_, ?_, ?_, ?_⟩
  · -- a halted run invokes no error hooks
    intro hh
    rcases hrv : runVals p.hasAppErr Ev.routeVal p.routeValidators 0
      (p.attachApp s) with ⟨t1, r1⟩
    have ht1 : (t1, r1).2 ≠ RunRes.failed → hookCount t1 = 0 := by
      intro hne
      have h := runVals_hooks p.hasAppErr Ev.routeVal (fun _ => rfl)
        p.routeValidators 0 (p.attachApp s) (by rw [hrv]; exact hne)
      rw [hrv] at h
      exact h
    cases r1 with
    | cont s1 =>
      rcases hrn : runNodes p.hasAppErr p.nodes 0 s1 with ⟨t2, r2⟩
      have ht2 : (t2, r2).2 ≠ RunRes.failed → hookCount t2 = 0 := by
        intro hne
        have h := runNodes_hooks p.hasAppErr p.nodes 0 s1
          (by rw [hrn]; exact hne)
        rw [hrn] at h
        exact h
      cases r2 with
      | cont s2 =>
        cases hhd : p.handler s2 with
        | ok =>
          rcases hra : runAfters p.hasAppErr p.nodes.enum.reverse s2
            with ⟨t3, r3⟩
          have hserve : serve p s = (t1 ++ t2 ++ Ev.handle :: t3, r3) := by
            simp [serve, hrv, hrn, hhd, hra]
          have hr3 : r3 = ServeOut.halted := by
            rw [hserve] at hh
            exact hh
          have ht3 : hookCount t3 = 0 := by
            have h := runAfters_hooks p.hasAppErr p.nodes.enum.reverse s2
              (by rw [hra, hr3]; intro h2; cases h2)
            rw [hra] at h
            exact h
          rw [hserve]
          simp only [hookCount_append, ht1 (by intro h2; cases h2),
            ht2 (by intro h2; cases h2), hookCount_cons_false Ev.handle rfl, ht3]
        | halt =>
          have hserve : serve p s = (t1 ++ t2 ++ [Ev.handle],
              ServeOut.halted) := by
            simp [serve, hrv, hrn, hhd]
          rw [hserve]
          simp only [hookCount_append, ht1 (by intro h2; cases h2),
            ht2 (by intro h2; cases h2)]
          rfl
        | fail =>
          have hserve : serve p s = (t1 ++ t2 ++ Ev.handle ::
              hookEvs p.hasAppErr, ServeOut.failed) := by
            simp [serve, hrv, hrn, hhd]
          rw [hserve] at hh
          cases hh
      | halted =>
        have hserve : serve p s = (t1 ++ t2, ServeOut.halted) := by
          simp [serve, hrv, hrn]
        rw [hserve]
        simp only [hookCount_append, ht1 (by intro h2; cases h2),
          ht2 (by intro h2; cases h2)]
      | failed =>
        have hserve : serve p s = (t1 ++ t2, ServeOut.failed) := by
          simp [serve, hrv, hrn]
        rw [hserve] at hh
        cases hh
    | halted =>
      have hserve : serve p s = (t1, ServeOut.halted) := by
        simp [serve, hrv]
      rw [hserve]
      exact ht1 (by intro h2; cases h2)
    | failed =>
      have hserve : serve p s = (t1, ServeOut.failed) := by
        simp [serve, hrv]
      rw [hserve] at hh
      cases hh
  · -- route validator halt
    intro l1 v l2 t1 s1 hsplit hpre hv
    have h1 : runVals p.hasAppErr Ev.routeVal p.routeValidators 0
        (p.attachApp s) = (t1 ++ [Ev.routeVal l1.length], RunRes.halted) := by
      rw [hsplit, runVals_append, hpre]
      rcases hvv : v s1 with ⟨sx, ox⟩
      have hox : ox = Outcome.halt := by
        rw [hvv] at hv
        exact hv
      subst hox
      simp [seqStep, runVals, hvv]
    simp [serve, h1]
  · -- node validator halt
    intro n1 nd n2 l1 v l2 t1 s1 t2 s2 t3 s3 hnodes hvs hpre1 hpre2 hpre3 hv
    have h3 : runVals p.hasAppErr (Ev.nodeVal n1.length) nd.validators 0 s2 =
        (t3 ++ [Ev.nodeVal n1.length l1.length], RunRes.halted) := by
      rw [hvs, runVals_append, hpre3]
      rcases hvv : v s3 with ⟨sx, ox⟩
      have hox : ox = Outcome.halt := by
        rw [hvv] at hv
        exact hv
      subst hox
      simp [seqStep, runVals, hvv]
    have h2 : runNodes p.hasAppErr p.nodes 0 s1 =
        (t2 ++ (t3 ++ [Ev.nodeVal n1.length l1.length]), RunRes.halted) := by
      rw [hnodes, runNodes_append, hpre2]
      simp [seqStep, runNodes, h3]
    rw [show t1 ++ t2 ++ t3 ++ [Ev.nodeVal n1.length l1.length] =
      t1 ++ (t2 ++ (t3 ++ [Ev.nodeVal n1.length l1.length])) by
        simp [List.append_assoc]]
    simp [serve, hpre1, h2]
  · -- before halt
    intro n1 nd n2 t1 s1 t2 s2 t3 s3 hnodes hpre1 hpre2 hpre3 hb
    have h2 : runNodes p.hasAppErr p.nodes 0 s1 =
        (t2 ++ (t3 ++ [Ev.before n1.length]), RunRes.halted) := by
      rw [hnodes, runNodes_append, hpre2]
      rcases hbb : nd.before s3 with ⟨sx, ox⟩
      have hox : ox = Outcome.halt := by
        rw [hbb] at hb
        exact hb
      subst hox
      simp [seqStep, runNodes, hpre3, hbb]
    rw [show t1 ++ t2 ++ t3 ++ [Ev.before n1.length] =
      t1 ++ (t2 ++ (t3 ++ [Ev.before n1.length])) by simp [List.append_assoc]]
    simp [serve, hpre1, h2]
  · -- handler halt
    intro t1 s1 t2 s2 hpre1 hpre2 hhd
    rw [show t1 ++ t2 ++ [Ev.handle] = t1 ++ (t2 ++ [Ev.handle]) by
      simp [List.append_assoc]]
    simp [serve, hpre1, hpre2, hhd]

/-- C2 witness: a concrete pipeline whose single service's `Before` halts;
the run stops at that `Before` with no handler, no `After`, and zero
error-hook invocations. -/
theorem c2_halt_stops_pipeline_witness :
    serve beforeHaltPipe () = ([Ev.before 0], ServeOut.halted) ∧
    hookCount (serve beforeHaltPipe ()).1 = 0 := by
  constructor
  · have h := (c2_halt_stops_pipeline beforeHaltPipe ()).2.2.2.1
      [] beforeHaltNode [] [] () [] () [] () rfl rfl rfl rfl (by decide)
    simpa using h
  · exact (c2_halt_stops_pipeline beforeHaltPipe ()).1 (by decide)

/-! ## Context store lemmas -/

theorem getStore_alloc {V : Type} (w : World V) (st : Store V) :
    getStore (⟨w.heap ++ [st]⟩ : World V) (some w.heap.length) = st := by
  simp [getStore]

theorem getStore_alloc_old {V : Type} (w : World V) (st : Store V) (i : Nat)
    (h : i < w.heap.length) :
    getStore (⟨w.heap ++ [st]⟩ : World V) (some i) = getStore w (some i) := by
  simp only [getStore]
  rw [List.getD_append _ _ _ _ h]

theorem mapGet_put_self {V : Type} (m : List (String × V)) (k : String)
    (v : V) : mapGet (mapPut m k v) k = some v := by
  simp [mapGet, mapPut]

theorem mapGet_put_other {V : Type} (m : List (String × V)) (k k2 : String)
    (v : V) (h : k2 ≠ k) : mapGet (mapPut m k v) k2 = mapGet m k2 := by
  simp [mapGet, mapPut, h]

theorem getStore_withValidated {V : Type} (w : World V) (r : Req)
    (t : String) (v : V) :
    getStore (withValidated w r t v).1 (withValidated w r t v).2 =
      ⟨mapPut (getStore w r).byType t v, (getStore w r).byKey⟩ := by
  simp only [withValidated, allocStore, cloneStore]
  exact getStore_alloc w _

theorem getStore_withValid {V : Type} (w : World V) (r : Req)
    (t name : String) (v : V) :
    getStore (withValid w r t name v).1 (withValid w r t name v).2 =
      ⟨(getStore w r).byType, mapPut (getStore w r).byKey (keyString t name) v⟩ := by
  simp only [withValid, allocStore, cloneStore]
  exact getStore_alloc w _

theorem validated_withValidated_self {V : Type} (w : World V) (r : Req)
    (t : String) (v : V) :
    validated (withValidated w r t v).1 (withValidated w r t v).2 t = some v := by
  simp only [validated, getStore_withValidated]
  exact mapGet_put_self _ _ _

theorem valid_withValidated {V : Type} (w : World V) (r : Req)
    (t : String) (v : V) (t2 n2 : String) :
    valid (withValidated w r t v).1 (withValidated w r t v).2 t2 n2 =
      valid w r t2 n2 := by
  simp only [valid, getStore_withValidated]

theorem valid_withValid_self {V : Type} (w : World V) (r : Req)
    (t name : String) (v : V) :
    valid (withValid w r t name v).1 (withValid w r t name v).2 t name =
      some v := by
  simp only [valid, getStore_withValid]
  exact mapGet_put_self _ _ _

theorem validated_withValid {V : Type} (w : World V) (r : Req)
    (t name : String) (v : V) (t2 : String) :
    validated (withValid w r t name v).1 (withValid w r t name v).2 t2 =
      validated w r t2 := by
  simp only [validated, getStore_withValid]

/-! ## Claim C6: by-type last write wins, by-key slots independent -/

/-- C6 (confirmed).  A later by-type put for an already-populated type
overrides prior by-type lookups (last write wins); by-key lookups for the
same type are unaffected by an unkeyed by-type put; and a by-key get keeps
returning the last by-key put even after a subsequent unkeyed by-type put
of the same type. -/
theorem c6_store_overwrite_independence {V : Type} (w : World V) (r : Req)
    (t : String) (v1 v2 : V) (name : String) (vk : V) :
    (validated
        (withValidated (withValidated w r t v1).1 (withValidated w r t v1).2
          t v2).1
        (withValidated (withValidated w r t v1).1 (withValidated w r t v1).2
          t v2).2 t = some v2) ∧
    (∀ n2 : String,
      valid
        (withValidated (withValidated w r t v1).1 (withValidated w r t v1).2
          t v2).1
        (withValidated (withValidated w r t v1).1 (withValidated w r t v1).2
          t v2).2 t n2 = valid w r t n2) ∧
    (valid
        (withValidated (withValid w r t name vk).1 (withValid w r t name vk).2
          t v1).1
        (withValidated (withValid w r t name vk).1 (withValid w r t name vk).2
          t v1).2 t name = some vk) := by
  refine ⟨?_, ?_, ?_⟩
  · exact validated_withValidated_self _ _ _ _
  · intro n2
    rw [valid_withValidated, valid_withValidated]
  · rw [valid_withValidated]
    exact valid_withValid_self _ _ _ _ _

/-! ## Claim C7: puts never disturb previously obtained snapshots -/

/-- C7 (confirmed).  Both put operations return a new store snapshot and
leave every previously valid reference untouched: all by-type and by-key
lookups through an older reference give the same results after the put as
before it.  (The heap model makes this a real frame property: an in-place
write to the old cell would falsify it.) -/
theorem c7_put_preserves_snapshots {V : Type} (w : World V) (r : Req)
    (t name : String) (v : V) (r0 : Req) (h : validRef w r0) :
    ∀ t2 n2 : String,
      validated (withValidated w r t v).1 r0 t2 = validated w r0 t2 ∧
      valid (withValidated w r t v).1 r0 t2 n2 = valid w r0 t2 n2 ∧
      validated (withValid w r t name v).1 r0 t2 = validated w r0 t2 ∧
      valid (withValid w r t name v).1 r0 t2 n2 = valid w r0 t2 n2 := by
  intro t2 n2
  cases r0 with
  | none => exact ⟨rfl, rfl, rfl, rfl⟩
  | some i =>
    have hi : i < w.heap.length := h i rfl
    have h1 : getStore (withValidated w r t v).1 (some i) =
        getStore w (some i) := by
      simp only [withValidated, allocStore]
      exact getStore_alloc_old w _ i hi
    have h2 : getStore (withValid w r t name v).1 (some i) =
        getStore w (some i) := by
      simp only [withValid, allocStore]
      exact getStore_alloc_old w _ i hi
    refine ⟨?_, ?_, ?_, ?_⟩ <;>
      simp only [validated, valid, h1, h2]

/-- C7 witness: a world with one populated cell; a by-type put and a by-key
put both leave lookups through the old reference unchanged. -/
theorem c7_put_preserves_snapshots_witness :
    validRef cellW (some 0) ∧
    validated (withValidated cellW (some 0) "A" 9).1 (some 0) "A" =
      validated cellW (some 0) "A" ∧
    valid (withValid cellW (some 0) "A" "k" 9).1 (some 0) "A" "k" =
      valid cellW (some 0) "A" "k" := by
  have h : validRef cellW (some 0) := by
    intro i hi
    cases hi
    decide
  refine ⟨h, ?_, ?_⟩
  · exact (c7_put_preserves_snapshots cellW (some 0) "A" "k" 9 (some 0) h
      "A" "k").1
  · exact (c7_put_preserves_snapshots cellW (some 0) "A" "k" 9 (some 0) h
      "A" "k").2.2.2

/-! ## Claim C9: keyed puts also write the by-type slot -/

/-- C9 (confirmed).  `ProvideKey` (and a successful validator wrapped by
`KSV` or `WrapValidatorKey`) writes BOTH the by-key slot and the by-type
slot, overwriting whatever the by-type slot for the type previously held;
only `WrapValidatorOnlyKey` writes the by-key slot alone, leaving the
by-type slot untouched. -/
theorem c9_provide_key_writes_both {V E : Type} (w : World V) (r : Req)
    (t name : String) (v : V) (val : V) :
    (validated (provideKey w r t name v).1 (provideKey w r t name v).2 t =
        some v ∧
      valid (provideKey w r t name v).1 (provideKey w r t name v).2 t name =
        some v) ∧
    (validated (wrapValidatorKeyRun (Except.ok val : Except E V) w r t name).1
        (wrapValidatorKeyRun (Except.ok val : Except E V) w r t name).2.1 t =
        some val ∧
      valid (wrapValidatorKeyRun (Except.ok val : Except E V) w r t name).1
        (wrapValidatorKeyRun (Except.ok val : Except E V) w r t name).2.1
        t name = some val) ∧
    (validated (ksvRun (Except.ok val : Except E V) w r t name).1
        (ksvRun (Except.ok val : Except E V) w r t name).2.1 t = some val ∧
      valid (ksvRun (Except.ok val : Except E V) w r t name).1
        (ksvRun (Except.ok val : Except E V) w r t name).2.1 t name =
        some val) ∧
    (valid (wrapValidatorOnlyKeyRun (Except.ok val : Except E V) w r t name).1
        (wrapValidatorOnlyKeyRun (Except.ok val : Except E V) w r t name).2.1
        t name = some val ∧
      validated
        (wrapValidatorOnlyKeyRun (Except.ok val : Except E V) w r t name).1
        (wrapValidatorOnlyKeyRun (Except.ok val : Except E V) w r t name).2.1
        t = validated w r t) := by
  have hpk : ∀ v0 : V,
      validated (provideKey w r t name v0).1 (provideKey w r t name v0).2 t =
        some v0 ∧
      valid (provideKey w r t name v0).1 (provideKey w r t name v0).2 t name =
        some v0 := by
    intro v0
    constructor
    · show validated (withValid (withValidated w r t v0).1
          (withValidated w r t v0).2 t name v0).1
        (withValid (withValidated w r t v0).1
          (withValidated w r t v0).2 t name v0).2 t = some v0
      rw [validated_withValid]
      exact validated_withValidated_self _ _ _ _
    · exact valid_withValid_self _ _ _ _ _
  refine ⟨hpk v, ⟨?_, ?_⟩, hpk val, ⟨?_, ?_⟩⟩
  · show validated (withValid (withValidated w r t val).1
        (withValidated w r t val).2 t name val).1
      (withValid (withValidated w r t val).1
        (withValidated w r t val).2 t name val).2 t = some val
    rw [validated_withValid]
    exact validated_withValidated_self _ _ _ _
  · exact valid_withValid_self _ _ _ _ _
  · exact valid_withValid_self _ _ _ _ _
  · exact validated_withValid _ _ _ _ _ _

/-! ## Claim C8: WebSocket phase sequence -/

theorem wsReceiveLoop_spec {M E : Type} (dispatch : WSEv M E → DispatchRes) :
    ∀ (inbound : List M) (term : E),
      wsReceiveLoop dispatch inbound term =
        (inbound.map WSEv.messageEv, term) := by
  intro inbound
  induction inbound with
  | nil => intro term; rfl
  | cons m rest ih =>
    intro term
    simp [wsReceiveLoop, ih]

/-- C8 (confirmed).  For every accepted connection, the dispatched phase
sequence is exactly one OPEN, then one MESSAGE per inbound frame in order,
then exactly one CLOSE carrying the terminating transport read error as its
reason, dispatched only after the receive loop has consumed the whole
inbound stream.  The sequence is the same for every `dispatch` behavior:
a handler-reported failure inside any phase (dispatch results are discarded
by the driver) neither terminates the connection nor alters the sequence.
The Go receive loop runs on the single connection goroutine, which the
sequential model reflects. -/
theorem c8_ws_phase_sequence {M E : Type} (dispatch : WSEv M E → DispatchRes)
    (inbound : List M) (term : E) :
    serveWebSocketModel dispatch inbound term =
      WSEv.openEv :: inbound.map WSEv.messageEv ++ [WSEv.closeEv term] := by
  simp [serveWebSocketModel, wsReceiveLoop_spec]

/-! ## Claim C10: GET fallback for OPEN/MESSAGE only -/

/-- C10 (confirmed).  When a path has no route under the OPEN or MESSAGE
phase but has an ordinary GET route, `dispatchWS` falls back to the GET
route for those two phases; DRAIN and CLOSE have no fallback — their
dispatches are dropped when no phase-specific route is registered.  A
phase-specific route always wins over the fallback. -/
theorem c10_dispatch_fallback {RT : Type} (reg : Registry RT) (path : String)
    (rt : RT) :
    (regLookup reg "OPEN" path = none → regLookup reg "GET" path = some rt →
      dispatchWS reg "OPEN" path = some rt) ∧
    (regLookup reg "MESSAGE" path = none →
      regLookup reg "GET" path = some rt →
      dispatchWS reg "MESSAGE" path = some rt) ∧
    (regLookup reg "DRAIN" path = none →
      dispatchWS reg "DRAIN" path = none) ∧
    (regLookup reg "CLOSE" path = none →
      dispatchWS reg "CLOSE" path = none) ∧
    (∀ phase : String, regLookup reg phase path = some rt →
      dispatchWS reg phase path = some rt) := by
  refine ⟨?_, ?_, ?_, ?_, ?_⟩
  · intro h1 h2
    simp [dispatchWS, h1, h2]
  · intro h1 h2
    simp [dispatchWS, h1, h2]
  · intro h1
    simp only [dispatchWS, h1]
    rw [if_neg (by decide)]
  · intro h1
    simp only [dispatchWS, h1]
    rw [if_neg (by decide)]
  · intro phase h1
    simp [dispatchWS, h1]

/-- C10 witness: with a GET route at `/ws` and a CLOSE route at `/c`, OPEN
and MESSAGE dispatches at `/ws` fall back to the GET route, DRAIN and CLOSE
dispatches at `/ws` are dropped, and the CLOSE dispatch at `/c` goes to its
own route. -/
theorem c10_dispatch_fallback_witness :
    dispatchWS wsReg "OPEN" "/ws" = some 7 ∧
    dispatchWS wsReg "MESSAGE" "/ws" = some 7 ∧
    dispatchWS wsReg "DRAIN" "/ws" = none ∧
    dispatchWS wsReg "CLOSE" "/ws" = none ∧
    dispatchWS wsReg "CLOSE" "/c" = some 9 := by
  refine ⟨?_, ?_, ?_, ?_, ?_⟩
  · exact (c10_dispatch_fallback wsReg "/ws" 7).1 (by decide) (by decide)
  · exact (c10_dispatch_fallback wsReg "/ws" 7).2.1 (by decide) (by decide)
  · exact (c10_dispatch_fallback wsReg "/ws" 7).2.2.1 (by decide)
  · exact (c10_dispatch_fallback wsReg "/ws" 7).2.2.2.1 (by decide)
  · exact (c10_dispatch_fallback wsReg "/c" 9).2.2.2.2 "CLOSE" (by decide)

/-! ## Resolver invariant -/

/-- Key invariant of `resolveServices`: a successful `visit` leaves the
`visiting` set exactly as it found it, only grows `visited` (which always
lists exactly the emitted identities, newest first, without duplicates and
disjoint from `visiting`), only appends to the output, and ends with every
service it was asked to visit recorded in `visited`. -/
theorem visitGo_inv (u : Univ) :
    ∀ (fuel : Nat) (a : Nat ⊕ List Nat) (st st2 : RState),
      visitGo u fuel a st = Except.ok st2 → RInv st →
      RInv st2 ∧ st2.visiting = st.visiting ∧ st.visited ⊆ st2.visited ∧
      (∃ d, st2.out = st.out ++ d) ∧
      (∀ i s, a = Sum.inl i → u[i]? = some s → sid s ∈ st2.visited) ∧
      (∀ l, a = Sum.inr l → ∀ i ∈ l, ∀ s, u[i]? = some s →
        sid s ∈ st2.visited) := by
  intro fuel
  induction fuel with
  | zero =>
    intro a st st2 h hinv
    simp [visitGo] at h
  | succ fuel ih =>
    intro a st st2 h hinv
    cases a with
    | inl i =>
      cases hu : u[i]? with
      | none =>
        have hst : st2 = st := by
          simp [visitGo, hu] at h
          exact h.symm
        subst hst
        refine ⟨hinv, rfl, fun x hx => hx, ⟨[], by simp⟩, ?_, ?_⟩
        · intro i2 s heq hus
          injection heq with hi
          subst hi
          rw [hu] at hus
          cases hus
        · intro l2 heq
          cases heq
      | some s0 =>
        by_cases h1 : sid s0 ∈ st.visited
        · have hst : st2 = st := by
            simp [visitGo, hu, h1] at h
            exact h.symm
          subst hst
          refine ⟨hinv, rfl, fun x hx => hx, ⟨[], by simp⟩, ?_, ?_⟩
          · intro i2 s heq hus
            injection heq with hi
            subst hi
            rw [hu] at hus
            injection hus with hs
            subst hs
            exact h1
          · intro l2 heq
            cases heq
        · by_cases h2 : sid s0 ∈ st.visiting
          · simp [visitGo, hu, h1, h2] at h
          · cases hrec : visitGo u fuel (Sum.inr s0.subs)
                ⟨sid s0 :: st.visiting, st.visited, st.out⟩ with
            | error e =>
              simp [visitGo, hu, h1, h2, hrec] at h
            | ok stM =>
              have hinv1 : RInv ⟨sid s0 :: st.visiting, st.visited, st.out⟩ := by
                refine ⟨hinv.1, hinv.2.1, ?_⟩
                intro x hx
                rcases List.mem_cons.mp hx with hx1 | hx2
                · rw [hx1]
                  exact h1
                · exact hinv.2.2 x hx2
              have hmain := ih (Sum.inr s0.subs)
                ⟨sid s0 :: st.visiting, st.visited, st.out⟩ stM hrec hinv1
              have hst2 : st2 = ⟨stM.visiting.erase (sid s0),
                  sid s0 :: stM.visited, stM.out ++ [s0]⟩ := by
                simp [visitGo, hu, h1, h2, hrec] at h
                exact h.symm
              have hsidM : sid s0 ∈ stM.visiting := by
                rw [hmain.2.1]
                exact List.mem_cons_self _ _
              have hnotM : sid s0 ∉ stM.visited := hmain.1.2.2 (sid s0) hsidM
              have hVisErase : stM.visiting.erase (sid s0) = st.visiting := by
                rw [hmain.2.1]
                exact List.erase_cons_head _ _
              subst hst2
              refine ⟨⟨?_, ?_, ?_⟩, hVisErase, ?_, ?_, ?_, ?_⟩
              · show sid s0 :: stM.visited = ((stM.out ++ [s0]).map sid).reverse
                rw [List.map_append, List.reverse_append]
                simp [← hmain.1.1]
              · exact List.nodup_cons.mpr ⟨hnotM, hmain.1.2.1⟩
              · intro x hx
                rw [hVisErase] at hx
                intro hmem
                rcases List.mem_cons.mp hmem with hx1 | hx2
                · rw [hx1] at hx
                  exact h2 hx
                · exact hmain.1.2.2 x
                    (by rw [hmain.2.1]; exact List.mem_cons_of_mem _ hx) hx2
              · intro x hx
                exact List.mem_cons_of_mem _ (hmain.2.2.1 hx)
              · rcases hmain.2.2.2.1 with ⟨d, hd⟩
                exact ⟨d ++ [s0], by rw [hd, List.append_assoc]⟩
              · intro i2 s heq hus
                injection heq with hi
                subst hi
                rw [hu] at hus
                injection hus with hs
                subst hs
                exact List.mem_cons_self _ _
              · intro l2 heq
                cases heq
    | inr l =>
      cases l with
      | nil =>
        have hst : st2 = st := by
          simp [visitGo] at h
          exact h.symm
        subst hst
        refine ⟨hinv, rfl, fun x hx => hx, ⟨[], by simp⟩, ?_, ?_⟩
        · intro i2 s heq
          cases heq
        · intro l2 heq j hj
          injection heq with hl
          subst hl
          cases hj
      | cons i rest =>
        cases hrecA : visitGo u fuel (Sum.inl i) st with
        | error e => simp [visitGo, hrecA] at h
        | ok stA =>
          have hrecB : visitGo u fuel (Sum.inr rest) stA = Except.ok st2 := by
            simpa [visitGo, hrecA] using h
          have hA := ih (Sum.inl i) st stA hrecA hinv
          have hB := ih (Sum.inr rest) stA st2 hrecB hA.1
          refine ⟨hB.1, ?_, ?_, ?_, ?_, ?_⟩
          · rw [hB.2.1, hA.2.1]
          · exact fun x hx => hB.2.2.1 (hA.2.2.1 hx)
          · rcases hA.2.2.2.1 with ⟨d1, hd1⟩
            rcases hB.2.2.2.1 with ⟨d2, hd2⟩
            exact ⟨d1 ++ d2, by rw [hd2, hd1, List.append_assoc]⟩
          · intro i2 s heq
            cases heq
          · intro l2 heq j hj s hus
            injection heq with hl
            subst hl
            rcases List.mem_cons.mp hj with hj1 | hj2
            · subst hj1
              exact hB.2.2.1 (hA.2.2.2.2.1 j s rfl hus)
            · exact hB.2.2.2.2.2 rest rfl j hj2 s hus

theorem rinv_init : RInv ⟨[], [], []⟩ := by
  refine ⟨rfl, List.nodup_nil, ?_⟩
  intro x hx
  cases hx

/-! ## Claim C3: cycles fail fast -/

/-- C3 (confirmed).  Revisiting a service whose identity is currently being
visited (ancestor re-entry) makes resolution fail immediately with an error
naming the offending identity — it is not silently skipped, and no node
list is produced (the result type is all-or-nothing).  And a resolution
failure surfaces before any pipeline work: the mount-time compile returns
the error and no `Before` (indeed no stage at all) ever executes.
(src/vii/app.go resolveServices; the historical revision in
src/unnamed/part_010 silently skipped instead, which the spec explicitly
supersedes with fail-fast.) -/
theorem c3_cycle_fail_fast :
    (∀ (u : Univ) (fuel i : Nat) (st : RState) (s : SvcDecl),
      u[i]? = some s → sid s ∉ st.visited → sid s ∈ st.visiting →
      visitGo u (fuel + 1) (Sum.inl i) st =
        Except.error (ResolveErr.cyclic (sid s))) ∧
    (∀ (u : Univ) (roots : List Nat) (e : ResolveErr) (τ : Type)
        (mkPipe : List SvcDecl → Pipeline τ) (s : τ),
      resolveServices u roots = Except.error e →
      resolveThenServe u roots mkPipe s = Except.error e) := by
  constructor
  · intro u fuel i st s hu h1 h2
    simp [visitGo, hu, h1, h2]
  · intro u roots e τ mkPipe s h
    simp [resolveThenServe, h]

/-- C3 witness: the two-service cycle `A → B → A`.  The re-entry on `A` is
reported as a cycle at identity `A`, and the whole resolution (hence the
mount) fails with that error, producing no node list and running nothing. -/
theorem c3_cycle_fail_fast_witness :
    visitGo cycU 5 (Sum.inl 0) ⟨["A"], [], []⟩ =
      Except.error (ResolveErr.cyclic "A") ∧
    resolveServices cycU [0] = Except.error (ResolveErr.cyclic "A") ∧
    resolveThenServe cycU [0] constPipe () =
      Except.error (ResolveErr.cyclic "A") := by
  refine ⟨?_, ?_, ?_⟩
  · have h := c3_cycle_fail_fast.1 cycU 4 0 ⟨["A"], [], []⟩ ⟨"A", none, [1]⟩
      (by decide) (by decide) (by decide)
    exact h
  · rfl
  · exact c3_cycle_fail_fast.2 cycU [0] (ResolveErr.cyclic "A") Unit constPipe
      () rfl

/-! ## Claim C4: exactly one node per identity -/

theorem sid_key_inj (t k1 k2 : String)
    (h : (t ++ "|" ++ k1) = (t ++ "|" ++ k2)) : k1 = k2 := by
  have h2 := congrArg String.data h
  simp only [String.data_append] at h2
  have h3 := List.append_cancel_left h2
  cases k1
  cases k2
  exact congrArg String.mk h3

/-- C4 (confirmed).  For every successfully resolved service graph, the
output contains exactly one node per distinct identity (reflected type
name, refined by the instance key): the identities are duplicate-free, each
root service's identity occurs exactly once (so a service reachable via
multiple paths runs once), and two root instances of the same type with
distinct instance keys have distinct identities, each occurring exactly
once — they never collapse into a single node. -/
theorem c4_one_node_per_identity :
    ∀ (u : Univ) (roots : List Nat) (out : List SvcDecl),
      resolveServices u roots = Except.ok out →
      (out.map sid).Nodup ∧
      (∀ i ∈ roots, ∀ s : SvcDecl, u[i]? = some s →
        (out.map sid).count (sid s) = 1) ∧
      (∀ i1 ∈ roots, ∀ i2 ∈ roots, ∀ (s1 s2 : SvcDecl) (k1 k2 : String),
        u[i1]? = some s1 → u[i2]? = some s2 →
        s1.typeName = s2.typeName → s1.key = some k1 → s2.key = some k2 →
        k1 ≠ k2 →
        sid s1 ≠ sid s2 ∧ (out.map sid).count (sid s1) = 1 ∧
          (out.map sid).count (sid s2) = 1) := by
  intro u roots out hres
  cases hfin : visitGo u (resolveFuel u roots) (Sum.inr roots)
      ⟨[], [], []⟩ with
  | error e =>
    simp [resolveServices, hfin] at hres
  | ok stF =>
    have hout : stF.out = out := by
      simp [resolveServices, hfin] at hres
      exact hres
    have hmain := visitGo_inv u (resolveFuel u roots) (Sum.inr roots)
      ⟨[], [], []⟩ stF hfin rinv_init
    have hvis : stF.visited = (out.map sid).reverse := by
      rw [← hout]
      exact hmain.1.1
    have hnodup : (out.map sid).Nodup := by
      have h := hmain.1.2.1
      rw [hvis] at h
      exact List.nodup_reverse.mp h
    have hmem : ∀ i ∈ roots, ∀ s : SvcDecl, u[i]? = some s →
        sid s ∈ out.map sid := by
      intro i hi s hus
      have h := hmain.2.2.2.2.2 roots rfl i hi s hus
      rw [hvis] at h
      exact List.mem_reverse.mp h
    refine ⟨hnodup, ?_, ?_⟩
    · intro i hi s hus
      exact List.count_eq_one_of_mem hnodup (hmem i hi s hus)
    · intro i1 hi1 i2 hi2 s1 s2 k1 k2 hu1 hu2 ht hk1 hk2 hk
      have hne : sid s1 ≠ sid s2 := by
        intro heq
        refine hk ?_
        have e1 : sid s1 = s1.typeName ++ "|" ++ k1 := by simp [sid, hk1]
        have e2 : sid s2 = s2.typeName ++ "|" ++ k2 := by simp [sid, hk2]
        rw [e1, e2, ht] at heq
        exact sid_key_inj s2.typeName k1 k2 heq
      exact ⟨hne, List.count_eq_one_of_mem hnodup (hmem i1 hi1 s1 hu1),
        List.count_eq_one_of_mem hnodup (hmem i2 hi2 s2 hu2)⟩

/-- C4 witness: two keyed instances `L|x`, `L|y` of type `L` sharing the
dependency `D`: the output is `[D, L|x, L|y]` — `D` once although reached
twice, and the two keyed instances as two distinct nodes, once each. -/
theorem c4_one_node_per_identity_witness :
    resolveServices dedupU [0, 1, 2] = Except.ok dedupOut ∧
    (dedupOut.map sid).Nodup ∧
    (dedupOut.map sid).count (sid ⟨"D", none, []⟩) = 1 ∧
    sid (⟨"L", some "x", [2]⟩ : SvcDecl) ≠ sid (⟨"L", some "y", [2]⟩ : SvcDecl) ∧
    (dedupOut.map sid).count (sid ⟨"L", some "x", [2]⟩) = 1 ∧
    (dedupOut.map sid).count (sid ⟨"L", some "y", [2]⟩) = 1 := by
  have h := c4_one_node_per_identity dedupU [0, 1, 2] dedupOut rfl
  have h3 := h.2.2 0 (by decide) 1 (by decide) ⟨"L", some "x", [2]⟩
    ⟨"L", some "y", [2]⟩ "x" "y" (by decide) (by decide) rfl rfl rfl
    (by decide)
  exact ⟨rfl, h.1, h.2.1 2 (by decide) ⟨"D", none, []⟩ (by decide),
    h3.1, h3.2.1, h3.2.2⟩

/-! ## Claim C5: root concatenation order is preserved -/

theorem visitGo_inr_split (u : Univ) :
    ∀ (fuel : Nat) (l1 l2 : List Nat) (st r : RState),
      visitGo u fuel (Sum.inr (l1 ++ l2)) st = Except.ok r →
      ∃ (st1 : RState) (f2 : Nat),
        visitGo u fuel (Sum.inr l1) st = Except.ok st1 ∧
        visitGo u f2 (Sum.inr l2) st1 = Except.ok r := by
  intro fuel
  induction fuel with
  | zero =>
    intro l1 l2 st r h
    simp [visitGo] at h
  | succ fuel ih =>
    intro l1 l2 st r h
    cases l1 with
    | nil =>
      exact ⟨st, fuel + 1, rfl, h⟩
    | cons i rest =>
      cases hrecA : visitGo u fuel (Sum.inl i) st with
      | error e => simp [visitGo, hrecA] at h
      | ok stA =>
        have hB : visitGo u fuel (Sum.inr (rest ++ l2)) stA = Except.ok r := by
          simpa [visitGo, hrecA] using h
        rcases ih rest l2 stA r hB with ⟨st1, f2, hB1, hB2⟩
        refine ⟨st1, f2, ?_, hB2⟩
        simp [visitGo, hrecA, hB1]

/-- C5 (confirmed).  The roots fed to the resolver by `compilePipeline` are
the application-wide services followed by the route services, concatenated
in that order; and a successful resolution of the concatenated roots
produces the resolution of the application-wide prefix followed by the
nodes contributed by the route services — so every node of the app-wide
subgraph sits at an earlier position (hence, by the executor's in-order
`Before` loop, runs its `Before` earlier) than every node first contributed
by a route service. -/
theorem c5_root_concat_order :
    ∀ (u : Univ) (aps rps : List Nat) (out : List SvcDecl),
      resolveServices u (compileRoots aps rps) = Except.ok out →
      compileRoots aps rps = aps ++ rps ∧
      ∃ st1 : RState,
        visitGo u (resolveFuel u (compileRoots aps rps)) (Sum.inr aps)
          ⟨[], [], []⟩ = Except.ok st1 ∧
        ∃ d : List SvcDecl, out = st1.out ++ d := by
  intro u aps rps out hres
  have hcr : compileRoots aps rps = aps ++ rps := by
    cases aps <;> cases rps <;> simp [compileRoots]
  refine ⟨hcr, ?_⟩
  rw [hcr] at hres ⊢
  cases hfin : visitGo u (resolveFuel u (aps ++ rps))
      (Sum.inr (aps ++ rps)) ⟨[], [], []⟩ with
  | error e =>
    simp [resolveServices, hfin] at hres
  | ok stF =>
    have hout : stF.out = out := by
      simp [resolveServices, hfin] at hres
      exact hres
    rcases visitGo_inr_split u _ aps rps _ stF hfin with ⟨st1, f2, h1, h2⟩
    refine ⟨st1, h1, ?_⟩
    have hinv1 := visitGo_inv u (resolveFuel u (aps ++ rps))
      (Sum.inr aps) ⟨[], [], []⟩ st1 h1 rinv_init
    have hinv2 := visitGo_inv u f2 (Sum.inr rps) st1 stF h2 hinv1.1
    rcases hinv2.2.2.2.1 with ⟨d, hd⟩
    refine ⟨d, ?_⟩
    rw [← hout, hd]

/-- C5 witness: app-wide root `A` and route root `B`: the concatenated
roots are `[0, 1]`, resolution yields `[A, B]`, and the app-wide prefix
resolves to `[A]`, extended by `[B]`. -/
theorem c5_root_concat_order_witness :
    compileRoots [0] [1] = [0, 1] ∧
    resolveServices orderU (compileRoots [0] [1]) =
      Except.ok [⟨"A", none, []⟩, ⟨"B", none, []⟩] ∧
    ∃ st1 : RState,
      visitGo orderU (resolveFuel orderU (compileRoots [0] [1]))
        (Sum.inr [0]) ⟨[], [], []⟩ = Except.ok st1 ∧
      ∃ d : List SvcDecl,
        [(⟨"A", none, []⟩ : SvcDecl), ⟨"B", none, []⟩] = st1.out ++ d := by
  refine ⟨by decide, rfl, ?_⟩
  exact (c5_root_concat_order orderU [0] [1]
    [⟨"A", none, []⟩, ⟨"B", none, []⟩] rfl).2

end Vii
